import Mathlib

/-!
# Verification of the goober subtitle pipeline

Shallow embedding of the core of the repository: the SRT subtitle data
model and codec, the two translation backends (`translate_srt` from
`src/tl_argos.py` and `translate_srt_opus` from `src/tl_opus.py`), the
Argos model-provisioning routine (`ensure_argos_pair` / `load_translator`
from `src/tl_argos.py`), the subtitle-document builder (`write_srt`), and
the language-code / output-path computations of both `main` functions.

Durations are modelled in whole milliseconds (the precision of the SRT
text format). External collaborators (the `srt` codec library, the
EasyNMT batch translator, the Argos package registry and Python's
`pathlib`) are modelled from the spec / their documented behaviour, as
noted on each definition; everything else is translated directly from
the Python source.
-/

namespace Goober

/-! ## Generic list splitting and joining -/

/-- Split a list on a separator element.  Mirrors Python's
`str.split(sep)`: always returns at least one (possibly empty) group,
one group per separator occurrence. -/
def splitSep [DecidableEq α] (sep : α) : List α → List (List α)
  | [] => [[]]
  | a :: as =>
    if a = sep then [] :: splitSep sep as
    else
      match splitSep sep as with
      | [] => [[a]]
      | l :: ls => (a :: l) :: ls

/-- Join groups, terminating every group with `sep` (the shape of a text
file in which every line, including the last, ends with a newline). -/
def joinSep (sep : α) : List (List α) → List α
  | [] => []
  | l :: ls => l ++ sep :: joinSep sep ls

/-- Join groups with `sep` interspersed between them (Python's
`sep.join(groups)`). -/
def joinInter (sep : α) : List (List α) → List α
  | [] => []
  | [l] => l
  | l :: ls => l ++ sep :: joinInter sep ls

/-! ## Decimal digits -/

/-- The ASCII digit character for `d` (`0 ≤ d ≤ 9`). -/
def digitChar (d : Nat) : Char := Char.ofNat (48 + d)

/-- Numeric value of an ASCII digit character. -/
def charVal (c : Char) : Nat := c.toNat - 48

/-- Is `c` an ASCII decimal digit? -/
def isDigitChar (c : Char) : Bool := 48 ≤ c.toNat && c.toNat ≤ 57

/-- Big-endian decimal digits of `n` (empty for `n = 0`); the first
argument is fuel, always instantiated to a bound on `n`. -/
def natToCharsAux : Nat → Nat → List Char
  | 0, _ => []
  | fuel + 1, n =>
    if n = 0 then [] else natToCharsAux fuel (n / 10) ++ [digitChar (n % 10)]

/-- Decimal rendering of a natural number, as Python's `str(n)`. -/
def natToChars (n : Nat) : List Char :=
  if n = 0 then ['0'] else natToCharsAux n n

/-- Horner evaluation of a digit string on top of `acc`. -/
def readNatAux : List Char → Nat → Nat
  | [], acc => acc
  | c :: cs, acc => readNatAux cs (10 * acc + charVal c)

/-- Parse a non-empty all-digit string as a natural number (Python's
`int(s)` restricted to the inputs the SRT index line can contain). -/
def charsToNat? (cs : List Char) : Option Nat :=
  if cs ≠ [] && cs.all isDigitChar then some (readNatAux cs 0) else none

/-! ## SRT timestamps

`HH:MM:SS,mmm`, fixed width, zero padded; durations are whole
milliseconds. -/

/-- Two-digit zero-padded decimal rendering. -/
def pad2 (n : Nat) : List Char := [digitChar (n / 10), digitChar (n % 10)]

/-- Three-digit zero-padded decimal rendering. -/
def pad3 (n : Nat) : List Char :=
  [digitChar (n / 100), digitChar (n / 10 % 10), digitChar (n % 10)]

/-- Render `t` milliseconds as `HH:MM:SS,mmm`. -/
def renderTs (t : Nat) : List Char :=
  pad2 (t / 3600000) ++ ':' :: (pad2 (t / 60000 % 60) ++ ':' ::
    (pad2 (t / 1000 % 60) ++ ',' :: pad3 (t % 1000)))

/-- Parse a fixed-width `HH:MM:SS,mmm` timestamp into milliseconds. -/
def readTs : List Char → Option Nat
  | [h1, h2, c1, m1, m2, c2, s1, s2, c3, x1, x2, x3] =>
    if c1 = ':' && c2 = ':' && c3 = ',' &&
        [h1, h2, m1, m2, s1, s2, x1, x2, x3].all isDigitChar then
      some (3600000 * (10 * charVal h1 + charVal h2)
            + 60000 * (10 * charVal m1 + charVal m2)
            + 1000 * (10 * charVal s1 + charVal s2)
            + (100 * charVal x1 + 10 * charVal x2 + charVal x3))
    else none
  | _ => none

/-- The ` --> ` separator of an SRT timestamp line. -/
def arrowSep : List Char := [' ', '-', '-', '>', ' ']

/-- An SRT timestamp line `HH:MM:SS,mmm --> HH:MM:SS,mmm`. -/
def tsLine (s e : Nat) : List Char := renderTs s ++ arrowSep ++ renderTs e

/-- Parse an SRT timestamp line into (start, end) milliseconds. -/
def readTsLine (cs : List Char) : Option (Nat × Nat) :=
  if (cs.drop 12).take 5 = arrowSep then
    match readTs (cs.take 12), readTs ((cs.drop 12).drop 5) with
    | some s, some e => some (s, e)
    | _, _ => none
  else none

/-! ## Subtitle data model and SRT codec -/

/-- One subtitle entry: `srt.Subtitle(index, start, end, content)`.
The `end` field of the source is called `stop` here (`end` is a Lean
keyword); `start`/`stop` are in milliseconds. -/
structure SubtitleEntry where
  index : Nat
  start : Nat
  stop : Nat
  content : String
  deriving DecidableEq, Repr

/-- The lines of one composed SRT block: index line, timestamp line,
then the content split into its lines. -/
def entryLines (e : SubtitleEntry) : List (List Char) :=
  natToChars e.index :: tsLine e.start e.stop :: splitSep '\n' e.content.data

/-- All lines of a composed document: each entry's lines followed by one
blank separator line. -/
def docLines (d : List SubtitleEntry) : List (List Char) :=
  (d.map (fun e => entryLines e ++ [[]])).flatten

/-- Modelled from the spec: `srt.compose` (the `srt` library is an
external collaborator).  Deterministic rendering: fixed-width zero-padded
`HH:MM:SS,mmm` timestamps, entries separated by one blank line, trailing
newline — every line, including the final blank separator, is terminated
by a newline. -/
def composeDoc (d : List SubtitleEntry) : String :=
  ⟨joinSep '\n' (docLines d)⟩

/-- Parse one blank-line-delimited block: an index line, a timestamp
line, and one or more content lines. -/
def parseBlock : List (List Char) → Option SubtitleEntry
  | idxL :: tsL :: c1 :: crest =>
    match charsToNat? idxL, readTsLine tsL with
    | some i, some se => some ⟨i, se.1, se.2, ⟨joinInter '\n' (c1 :: crest)⟩⟩
    | _, _ => none
  | _ => none

/-- Parse every block, failing if any block is malformed. -/
def parseBlocks : List (List (List Char)) → Option (List SubtitleEntry)
  | [] => some []
  | b :: bs =>
    match parseBlock b, parseBlocks bs with
    | some e, some es => some (e :: es)
    | _, _ => none

/-- Modelled from the spec: `srt.parse` (the `srt` library is an
external collaborator).  Splits the text into lines, groups the lines
into blank-line-separated blocks, and parses each non-empty block. -/
def parseDoc (text : String) : Option (List SubtitleEntry) :=
  parseBlocks
    ((splitSep ([] : List Char) (splitSep '\n' text.data)).filter
      (fun b => !b.isEmpty))

/-- A well-formed entry: timestamps below the 100-hour fixed-width limit
and no empty content line (so blank lines cannot occur inside a block). -/
def validEntry (e : SubtitleEntry) : Bool :=
  decide (e.start < 360000000) && decide (e.stop < 360000000) &&
    (splitSep '\n' e.content.data).all (fun l => !l.isEmpty)

/-- A well-formed document: every entry is well formed. -/
def validDoc (d : List SubtitleEntry) : Bool := d.all validEntry

/-! ## Segments, `write_srt` and whitespace stripping -/

/-- A transcription segment `(start, end, text)` as produced by
`transcribe_to_segments`; times in milliseconds, `end` is `stop`. -/
structure Segment where
  start : Nat
  stop : Nat
  text : String
  deriving DecidableEq, Repr

/-- The whitespace characters removed by Python's `str.strip()`
(restricted to ASCII; `str.strip()` also removes some rarer Unicode
whitespace, which never occurs in the claims' inputs). -/
def isWs (c : Char) : Bool :=
  c = ' ' || c = '\t' || c = '\n' || c = '\r' || c = '\x0b' || c = '\x0c'

/-- `str.strip()` on the character list: drop whitespace from the front,
then from the back. -/
def stripChars (cs : List Char) : List Char :=
  ((cs.dropWhile isWs).reverse.dropWhile isWs).reverse

/-- Python's `seg[2].strip()`. -/
def strip (s : String) : String := ⟨stripChars s.data⟩

/-- The loop body of `write_srt` (`src/tl_argos.py` lines 27-35 and
identically `src/tl_opus.py`): `enumerate(segments, start=i)` building
`srt.Subtitle(index=i, start=..., end=..., content=seg[2].strip())`. -/
def write_srtAux (i : Nat) : List Segment → List SubtitleEntry
  | [] => []
  | s :: ss => ⟨i, s.start, s.stop, strip s.text⟩ :: write_srtAux (i + 1) ss

/-- `write_srt(segments, out_path)` from `src/tl_argos.py` /
`src/tl_opus.py`, modelled at the document level (the file write is the
composition with `composeDoc`): 1-based enumeration of the segments. -/
def write_srt (segs : List Segment) : List SubtitleEntry :=
  write_srtAux 1 segs

/-! ## Translation backends -/

/-- `translate_srt(in_srt, out_srt, translator)` from `src/tl_argos.py`
lines 39-45, modelled at the document level: the loop
`sub.content = translator.translate(sub.content)` over the parsed
entries.  `tr` is the (pure) per-string translator. -/
def translate_srt (tr : String → String) (subs : List SubtitleEntry) :
    List SubtitleEntry :=
  subs.map (fun s => { s with content := tr s.content })

/-- Split a list into consecutive batches of size `bs`; the first
argument is fuel, always instantiated to the list length. -/
def chunksAux : Nat → Nat → List α → List (List α)
  | 0, _, _ => []
  | _, _, [] => []
  | fuel + 1, bs, l => l.take bs :: chunksAux fuel bs (l.drop bs)

/-- Batches of size `bs` of a list (well defined for `0 < bs`). -/
def chunks (bs : Nat) (l : List α) : List (List α) := chunksAux l.length bs l

/-- Modelled from the spec: the EasyNMT batch multilingual translator
(an external collaborator) "translates the full list of entry contents
in fixed-size batches", applying the underlying per-sentence model `f`
to each element of each batch and concatenating the results in order. -/
def easynmt_translate (f : String → String) (bs : Nat) (l : List String) :
    List String :=
  ((chunks bs l).map (fun c => c.map f)).flatten

/-- `translate_srt_opus(...)` from `src/tl_opus.py` lines 39-57,
modelled at the document level over an abstract batch translator: the
content list is translated in one batch call, then
`subs[i].content = translated_sentences[i]` for every `i` (which in
Python raises `IndexError`, here `none`, if the translated list is
shorter than the input). -/
def translate_srt_opus (batchTr : List String → List String)
    (subs : List SubtitleEntry) : Option (List SubtitleEntry) :=
  let translated := batchTr (subs.map (fun s => s.content))
  if subs.length ≤ translated.length then
    some (List.zipWith (fun s t => { s with content := t }) subs translated)
  else none

/-! ## Argos provisioning (`load_translator` / `ensure_argos_pair`)

The Argos library's registry and catalog are external collaborators;
they are modelled as explicit values: the installed-language list is the
state, the catalog is a list of packages, and download-plus-install is
an abstract state transformer that may fail. -/

/-- An installed Argos language: its code and the codes it can translate
to (abstracting `lang.get_translation`). -/
structure Language where
  code : String
  targets : List String
  deriving DecidableEq, Repr

/-- A translator handle for one language pair. -/
structure Translator where
  src : String
  tgt : String
  deriving DecidableEq, Repr

/-- A catalog package, `(pkg.from_code, pkg.to_code)`. -/
structure Package where
  from_code : String
  to_code : String
  deriving DecidableEq, Repr

/-- `lang.get_translation(other)`: a translator if the pair is covered,
else `None`. -/
def get_translation (l other : Language) : Option Translator :=
  if other.code ∈ l.targets then some ⟨l.code, other.code⟩ else none

/-- Python's `{lang.code: lang for lang in installed}[c]`: a dict
comprehension keyed by code, in which a later language with the same
code overwrites an earlier one, then looked up at `c`. -/
def lookupLang (installed : List Language) (c : String) : Option Language :=
  installed.reverse.find? (fun l => l.code == c)

/-- `load_translator(src_lang, tgt_lang)` from `src/tl_argos.py` lines
47-54: build the code-keyed dict of installed languages; if both codes
are present, return `get_translation` of the two (falling through to
`None` when it is falsy); else `None`. -/
def load_translator (installed : List Language) (src_lang tgt_lang : String) :
    Option Translator :=
  match lookupLang installed src_lang, lookupLang installed tgt_lang with
  | some ls, some lt => get_translation ls lt
  | _, _ => none

/-- The catalog dict key `f"{pkg.from_code}-{pkg.to_code}"`. -/
def pkgKey (p : Package) : String := p.from_code ++ "-" ++ p.to_code

/-- `available.get(key)` over the dict comprehension
`{f"{pkg.from_code}-{pkg.to_code}": pkg for pkg in ...}` (later packages
with the same key overwrite earlier ones). -/
def lookupPkg (catalog : List Package) (key : String) : Option Package :=
  catalog.reverse.find? (fun p => pkgKey p == key)

/-- The error taxonomy of the spec for `ensure`:
`ProvisioningError{PairNotFound | InstallFailed | StillUnavailable}`
(in the source all three are `RuntimeError`s with distinct messages). -/
inductive ProvKind where
  | pairNotFound
  | installFailed
  | stillUnavailable
  deriving DecidableEq, Repr

/-- Outcome of `ensure_argos_pair`: a translator handle or an error. -/
inductive EnsureOutcome where
  | ok (tr : Translator)
  | err (k : ProvKind)
  deriving DecidableEq, Repr

/-- Result of one `ensure_argos_pair` call: the outcome, the final
installed-language registry, and how many download/install attempts
(`pkg.download()` + `install_from_path`) were made. -/
structure EnsureResult where
  outcome : EnsureOutcome
  finalState : List Language
  downloads : Nat
  deriving DecidableEq, Repr

/-- `ensure_argos_pair(src_lang, tgt_lang)` from `src/tl_argos.py` lines
56-85.  `installed` is the current registry, `catalog` the remote
catalog, and `dl` abstracts `pkg.download()` followed by
`argos_pkg.install_from_path` — it returns the updated registry, or
`none` when download or install raises.  The source: return the loaded
translator if present; else look the pair key up in the catalog (no
match: error, no download); else download and install (failure: error);
then re-load and fail if the translator is still unavailable. -/
def ensure_argos_pair (installed : List Language) (catalog : List Package)
    (dl : List Language → Package → Option (List Language))
    (src_lang tgt_lang : String) : EnsureResult :=
  match load_translator installed src_lang tgt_lang with
  | some tr => ⟨.ok tr, installed, 0⟩
  | none =>
    match lookupPkg catalog (src_lang ++ "-" ++ tgt_lang) with
    | none => ⟨.err .pairNotFound, installed, 0⟩
    | some pkg =>
      match dl installed pkg with
      | none => ⟨.err .installFailed, installed, 1⟩
      | some installed2 =>
        match load_translator installed2 src_lang tgt_lang with
        | none => ⟨.err .stillUnavailable, installed2, 1⟩
        | some tr => ⟨.ok tr, installed2, 1⟩

/-! ## `main`-level computations: language codes and output paths -/

/-- ASCII lowercasing, Python's `str.lower()` on the codes that occur
here. -/
def asciiLower (s : String) : String :=
  ⟨s.data.map (fun c =>
    if 'A' ≤ c && c ≤ 'Z' then Char.ofNat (c.toNat + 32) else c)⟩

/-- Python's `s.split("-")[0]`. -/
def firstComponent (s : String) : String :=
  match splitSep '-' s.data with
  | [] => ⟨[]⟩
  | c :: _ => ⟨c⟩

/-- The effective source code of both `main`s (`src/tl_argos.py` line
152, `src/tl_opus.py` line 125):
`(detected_lang if args.language.lower() == "auto" else args.language).split("-")[0]`. -/
def resolve_src_code (language detected : String) : String :=
  firstComponent (if asciiLower language = "auto" then detected else language)

/-- The language pair handed to provisioning / the backend by `main`:
the resolved source code and the `--to` argument exactly as given. -/
def main_pair (language detected toCode : String) : String × String :=
  (resolve_src_code language detected, toCode)

/-- Scan of the reversed path: drop a trailing `.ext` from the final
path component.  `seen` records whether at least one character follows
the dot.  Returns `none` (leave the path unchanged) if the final
component has no dot, the dot is its first character, or the dot is its
last character. -/
def dropExtAux : List Char → Bool → Option (List Char)
  | [], _ => none
  | c :: rest, seen =>
    if c = '/' then none
    else if c = '.' then
      if seen then
        match rest with
        | [] => none
        | r :: _ => if r = '/' then none else some rest
      else none
    else dropExtAux rest true

/-- Modelled from the spec: `pathlib.Path.with_suffix("")` (an external
collaborator), documented as removing the final component's extension —
the part from its last dot, provided that dot is neither the first nor
the last character of the component.  POSIX separators; `pathlib`'s
separator normalization is not modelled. -/
def with_suffix_empty (p : String) : String :=
  match dropExtAux p.data.reverse false with
  | some r => ⟨r.reverse⟩
  | none => p

/-- `out_orig = Path(f"{base}.orig.srt")` with
`base = video.with_suffix("")` (`src/tl_argos.py` lines 128-129,
`src/tl_opus.py` lines 101-102). -/
def out_orig (video : String) : String :=
  with_suffix_empty video ++ ".orig.srt"

/-- `out_trans = Path(f"{base}.{args.to}.srt")` (`src/tl_argos.py` line
130, `src/tl_opus.py` line 103). -/
def out_trans (video toCode : String) : String :=
  with_suffix_empty video ++ "." ++ toCode ++ ".srt"

end Goober

namespace Goober

/-! ## Basic lemmas about the list utilities -/

theorem splitSep_cons [DecidableEq α] (sep a : α) (as : List α) :
    splitSep sep (a :: as) =
      if a = sep then [] :: splitSep sep as
      else
        match splitSep sep as with
        | [] => [[a]]
        | l :: ls => (a :: l) :: ls := rfl

theorem splitSep_ne_nil [DecidableEq α] (sep : α) (l : List α) :
    splitSep sep l ≠ [] := by
  cases l with
  | nil => simp [splitSep]
  | cons a as =>
    rw [splitSep_cons]
    by_cases h : a = sep
    · simp [h]
    · rcases hs : splitSep sep as with _ | ⟨g, gs⟩ <;> simp [h]

theorem splitSep_sep_not_mem [DecidableEq α] (sep : α) (l : List α) :
    ∀ g ∈ splitSep sep l, sep ∉ g := by
  induction l with
  | nil => intro g hg; simp [splitSep] at hg; simp [hg]
  | cons a as ih =>
    intro g hg
    rw [splitSep_cons] at hg
    by_cases ha : a = sep
    · rw [if_pos ha] at hg
      rcases List.mem_cons.mp hg with hg | hg
      · simp [hg]
      · exact ih g hg
    · rw [if_neg ha] at hg
      rcases hs : splitSep sep as with _ | ⟨l0, ls⟩
      · exact absurd hs (splitSep_ne_nil sep as)
      · rw [hs] at hg
        rcases List.mem_cons.mp hg with hg | hg
        · subst hg
          have hl : sep ∉ l0 := ih l0 (by rw [hs]; exact List.mem_cons_self _ _)
          intro hmem
          rcases List.mem_cons.mp hmem with h1 | h1
          · exact ha h1.symm
          · exact hl h1
        · exact ih g (by rw [hs]; exact List.mem_cons_of_mem _ hg)

theorem splitSep_append_sep [DecidableEq α] (sep : α) (xs rest : List α)
    (hxs : sep ∉ xs) :
    splitSep sep (xs ++ sep :: rest) = xs :: splitSep sep rest := by
  induction xs with
  | nil => simp [splitSep]
  | cons a as ih =>
    have ha : a ≠ sep := fun h => hxs (by simp [h])
    have has : sep ∉ as := fun h => hxs (List.mem_cons_of_mem _ h)
    rw [List.cons_append, splitSep_cons, if_neg ha, ih has]

theorem splitSep_of_not_mem [DecidableEq α] (sep : α) (l : List α)
    (hl : sep ∉ l) : splitSep sep l = [l] := by
  induction l with
  | nil => rfl
  | cons a as ih =>
    have ha : a ≠ sep := fun h => hl (by simp [h])
    have has : sep ∉ as := fun h => hl (List.mem_cons_of_mem _ h)
    rw [splitSep_cons, if_neg ha, ih has]

theorem joinInter_cons_ne_nil (sep : α) (l : List α) (ls : List (List α))
    (h : ls ≠ []) : joinInter sep (l :: ls) = l ++ sep :: joinInter sep ls := by
  cases ls with
  | nil => exact absurd rfl h
  | cons l2 ls2 => rfl

theorem joinInter_splitSep [DecidableEq α] (sep : α) (l : List α) :
    joinInter sep (splitSep sep l) = l := by
  induction l with
  | nil => rfl
  | cons a as ih =>
    rw [splitSep_cons]
    by_cases ha : a = sep
    · rw [if_pos ha, joinInter_cons_ne_nil sep [] _ (splitSep_ne_nil sep as), ih]
      simp [ha]
    · rw [if_neg ha]
      rcases hs : splitSep sep as with _ | ⟨g, gs⟩
      · exact absurd hs (splitSep_ne_nil sep as)
      · rw [hs] at ih
        cases gs with
        | nil => simpa [joinInter] using congrArg (a :: ·) ih
        | cons g2 gs2 =>
          rw [joinInter_cons_ne_nil sep g _ (by simp)] at ih
          rw [joinInter_cons_ne_nil sep (a :: g) _ (by simp)]
          simpa using ih

theorem splitSep_joinSep [DecidableEq α] (sep : α) (lines : List (List α))
    (h : ∀ l ∈ lines, sep ∉ l) :
    splitSep sep (joinSep sep lines) = lines ++ [[]] := by
  induction lines with
  | nil => rfl
  | cons l ls ih =>
    have hl : sep ∉ l := h l (List.mem_cons_self _ _)
    have hls : ∀ g ∈ ls, sep ∉ g := fun g hg => h g (List.mem_cons_of_mem _ hg)
    simp only [joinSep, splitSep_append_sep sep l _ hl, ih hls, List.cons_append]

/-! ## Lemmas about decimal digits -/

theorem isDigitChar_digitChar (d : Nat) (hd : d < 10) :
    isDigitChar (digitChar d) = true := by
  interval_cases d <;> decide

theorem charVal_digitChar (d : Nat) (hd : d < 10) : charVal (digitChar d) = d := by
  interval_cases d <;> decide

theorem digit_ne_of_isDigitChar (c x : Char) (hc : isDigitChar c = true)
    (hx : isDigitChar x = false) : c ≠ x := by
  intro h; rw [h] at hc; rw [hc] at hx; exact Bool.noConfusion hx

theorem natToCharsAux_all_digits (fuel : Nat) :
    ∀ n, ∀ c ∈ natToCharsAux fuel n, isDigitChar c = true := by
  induction fuel with
  | zero => intro n c hc; simp [natToCharsAux] at hc
  | succ f ih =>
    intro n c hc
    rw [natToCharsAux] at hc
    by_cases h : n = 0
    · simp [h] at hc
    · rw [if_neg h] at hc
      rcases List.mem_append.mp hc with hc | hc
      · exact ih (n / 10) c hc
      · rw [List.mem_singleton.mp hc]
        exact isDigitChar_digitChar _ (Nat.mod_lt n (by omega))

theorem natToCharsAux_ne_nil (fuel n : Nat) (hn : n ≠ 0) (hf : fuel ≠ 0) :
    natToCharsAux fuel n ≠ [] := by
  cases fuel with
  | zero => exact absurd rfl hf
  | succ f =>
    rw [natToCharsAux, if_neg hn]
    simp

theorem readNatAux_append_digit (a : List Char) (c : Char) :
    ∀ acc, readNatAux (a ++ [c]) acc = 10 * readNatAux a acc + charVal c := by
  induction a with
  | nil => intro acc; rfl
  | cons x xs ih => intro acc; rw [List.cons_append, readNatAux, readNatAux, ih]

theorem readNatAux_natToCharsAux (fuel : Nat) :
    ∀ n acc, n ≤ fuel →
      readNatAux (natToCharsAux fuel n) acc =
        acc * 10 ^ (natToCharsAux fuel n).length + n := by
  induction fuel with
  | zero =>
    intro n acc hn
    have : n = 0 := Nat.le_zero.mp hn
    simp [this, natToCharsAux, readNatAux]
  | succ f ih =>
    intro n acc hn
    by_cases h : n = 0
    · simp [h, natToCharsAux, readNatAux]
    · rw [natToCharsAux, if_neg h]
      have hdiv : n / 10 ≤ f := by
        have : n / 10 < n := Nat.div_lt_self (Nat.pos_of_ne_zero h) (by omega)
        omega
      rw [readNatAux_append_digit, ih (n / 10) acc hdiv,
          charVal_digitChar _ (Nat.mod_lt n (by omega))]
      rw [List.length_append, List.length_singleton]
      have hm : 10 * (n / 10) + n % 10 = n := Nat.div_add_mod n 10
      calc 10 * (acc * 10 ^ (natToCharsAux f (n / 10)).length + n / 10) + n % 10
          = acc * (10 ^ (natToCharsAux f (n / 10)).length * 10)
              + (10 * (n / 10) + n % 10) := by ring
        _ = acc * 10 ^ ((natToCharsAux f (n / 10)).length + 1) + n := by
              rw [hm, pow_succ]

theorem charsToNat?_natToChars (n : Nat) : charsToNat? (natToChars n) = some n := by
  by_cases h : n = 0
  · subst h; decide
  · rw [natToChars, if_neg h]
    have hne : natToCharsAux n n ≠ [] := natToCharsAux_ne_nil n n h h
    have hall : (natToCharsAux n n).all isDigitChar = true :=
      List.all_eq_true.mpr fun c hc => natToCharsAux_all_digits n n c hc
    rw [charsToNat?]
    rw [if_pos (by simp [hne, hall])]
    rw [readNatAux_natToCharsAux n n 0 le_rfl]
    simp

/-! ## Lemmas about timestamps -/

theorem renderTs_length (t : Nat) : (renderTs t).length = 12 := by
  simp [renderTs, pad2, pad3]

theorem readTs_renderTs (t : Nat) (ht : t < 360000000) :
    readTs (renderTs t) = some t := by
  have b1 : t / 3600000 / 10 < 10 := by omega
  have b2 : t / 3600000 % 10 < 10 := by omega
  have b3 : t / 60000 % 60 / 10 < 10 := by omega
  have b4 : t / 60000 % 60 % 10 < 10 := by omega
  have b5 : t / 1000 % 60 / 10 < 10 := by omega
  have b6 : t / 1000 % 60 % 10 < 10 := by omega
  have b7 : t % 1000 / 100 < 10 := by omega
  have b8 : t % 1000 / 10 % 10 < 10 := by omega
  have b9 : t % 1000 % 10 < 10 := by omega
  simp only [renderTs, pad2, pad3, List.cons_append, List.nil_append, readTs]
  rw [if_pos]
  · rw [charVal_digitChar _ b1, charVal_digitChar _ b2, charVal_digitChar _ b3,
        charVal_digitChar _ b4, charVal_digitChar _ b5, charVal_digitChar _ b6,
        charVal_digitChar _ b7, charVal_digitChar _ b8, charVal_digitChar _ b9]
    congr 1
    omega
  · simp [isDigitChar_digitChar _ b1, isDigitChar_digitChar _ b2,
      isDigitChar_digitChar _ b3, isDigitChar_digitChar _ b4,
      isDigitChar_digitChar _ b5, isDigitChar_digitChar _ b6,
      isDigitChar_digitChar _ b7, isDigitChar_digitChar _ b8,
      isDigitChar_digitChar _ b9]

theorem readTsLine_tsLine (s e : Nat) (hs : s < 360000000)
    (he : e < 360000000) : readTsLine (tsLine s e) = some (s, e) := by
  have h1 : (tsLine s e).take 12 = renderTs s := by
    rw [tsLine, List.append_assoc, ← renderTs_length s, List.take_left]
  have h2 : (tsLine s e).drop 12 = arrowSep ++ renderTs e := by
    rw [tsLine, List.append_assoc, ← renderTs_length s, List.drop_left]
  rw [readTsLine, h1, h2]
  rw [List.take_left' (by rfl), List.drop_left' (by rfl)]
  rw [if_pos rfl, readTs_renderTs s hs, readTs_renderTs e he]

theorem renderTs_ne_nl (t : Nat) (ht : t < 360000000) :
    ∀ c ∈ renderTs t, c ≠ '\n' := by
  intro c hc
  simp only [renderTs, pad2, pad3, List.cons_append, List.nil_append,
    List.mem_cons, List.not_mem_nil, or_false] at hc
  rcases hc with rfl | rfl | rfl | rfl | rfl | rfl | rfl | rfl | rfl | rfl | rfl | rfl
  all_goals first
    | decide
    | exact digit_ne_of_isDigitChar _ _ (isDigitChar_digitChar _ (by omega))
        (by decide)

theorem tsLine_ne_nl (s e : Nat) (hs : s < 360000000) (he : e < 360000000) :
    ∀ c ∈ tsLine s e, c ≠ '\n' := by
  intro c hc
  rw [tsLine] at hc
  rcases List.mem_append.mp hc with hc | hc
  · rcases List.mem_append.mp hc with hc | hc
    · exact renderTs_ne_nl s hs c hc
    · have harr : ∀ x ∈ arrowSep, x ≠ '\n' := by decide
      exact harr c hc
  · exact renderTs_ne_nl e he c hc

/-! ## The SRT round trip -/

theorem natToChars_ne_nil (n : Nat) : natToChars n ≠ [] := by
  by_cases h : n = 0
  · simp [h, natToChars]
  · rw [natToChars, if_neg h]
    exact natToCharsAux_ne_nil n n h h

theorem natToChars_all_digits (n : Nat) :
    ∀ c ∈ natToChars n, isDigitChar c = true := by
  by_cases h : n = 0
  · subst h; decide
  · rw [natToChars, if_neg h]
    exact natToCharsAux_all_digits n n

theorem validEntry_spec (e : SubtitleEntry) (h : validEntry e = true) :
    e.start < 360000000 ∧ e.stop < 360000000 ∧
      ∀ l ∈ splitSep '\n' e.content.data, l ≠ [] := by
  rw [validEntry, Bool.and_eq_true, Bool.and_eq_true] at h
  obtain ⟨⟨h1, h2⟩, h3⟩ := h
  refine ⟨of_decide_eq_true h1, of_decide_eq_true h2, ?_⟩
  intro l hl
  have := List.all_eq_true.mp h3 l hl
  simpa using this

theorem entryLines_ne_nil (e : SubtitleEntry) (h : validEntry e = true) :
    ∀ l ∈ entryLines e, l ≠ [] := by
  obtain ⟨h1, h2, h3⟩ := validEntry_spec e h
  intro l hl
  rw [entryLines] at hl
  rcases List.mem_cons.mp hl with rfl | hl
  · exact natToChars_ne_nil e.index
  · rcases List.mem_cons.mp hl with rfl | hl
    · have : (tsLine e.start e.stop).length = 29 := by
        simp [tsLine, arrowSep, renderTs_length]
      intro hnil
      rw [hnil] at this
      simp at this
    · exact h3 l hl

theorem entryLines_no_nl (e : SubtitleEntry) (h : validEntry e = true) :
    ∀ l ∈ entryLines e, '\n' ∉ l := by
  obtain ⟨h1, h2, _⟩ := validEntry_spec e h
  intro l hl
  rw [entryLines] at hl
  rcases List.mem_cons.mp hl with rfl | hl
  · intro hmem
    have := natToChars_all_digits e.index '\n' hmem
    exact absurd this (by decide)
  · rcases List.mem_cons.mp hl with rfl | hl
    · intro hmem
      exact tsLine_ne_nl e.start e.stop h1 h2 '\n' hmem rfl
    · exact splitSep_sep_not_mem '\n' e.content.data l hl

theorem docLines_no_nl (d : List SubtitleEntry) (h : validDoc d = true) :
    ∀ l ∈ docLines d, '\n' ∉ l := by
  intro l hl
  rw [docLines] at hl
  obtain ⟨ls, hls, hmem⟩ := List.mem_flatten.mp hl
  obtain ⟨e, he, rfl⟩ := List.mem_map.mp hls
  have hv : validEntry e = true := List.all_eq_true.mp h e he
  rcases List.mem_append.mp hmem with hmem | hmem
  · exact entryLines_no_nl e hv l hmem
  · rw [List.mem_singleton.mp hmem]
    simp

theorem splitSep_nl_composeDoc (d : List SubtitleEntry)
    (h : validDoc d = true) :
    splitSep '\n' (composeDoc d).data = docLines d ++ [[]] :=
  splitSep_joinSep '\n' (docLines d) (docLines_no_nl d h)

theorem splitSep_nil_docLines (d : List SubtitleEntry)
    (h : validDoc d = true) :
    splitSep ([] : List Char) (docLines d ++ [[]]) =
      d.map entryLines ++ [[], []] := by
  induction d with
  | nil => rfl
  | cons e d ih =>
    have hv : validEntry e = true := List.all_eq_true.mp h e (by simp)
    have hd : validDoc d = true := by
      rw [validDoc, List.all_eq_true]
      intro x hx
      exact List.all_eq_true.mp h x (List.mem_cons_of_mem _ hx)
    have hrw : docLines (e :: d) ++ [[]] =
        entryLines e ++ ([] :: (docLines d ++ [[]])) := by
      simp [docLines]
    rw [hrw, splitSep_append_sep _ _ _ ?hnm, ih hd]
    · simp
    case hnm =>
      intro hmem
      exact entryLines_ne_nil e hv [] hmem rfl

theorem filter_blocks (d : List SubtitleEntry) :
    (d.map entryLines ++ [[], []]).filter (fun b => !b.isEmpty) =
      d.map entryLines := by
  rw [List.filter_append]
  have h2 : ([[], []] : List (List (List Char))).filter
      (fun b => !b.isEmpty) = [] := rfl
  rw [h2, List.append_nil]
  apply List.filter_eq_self.mpr
  intro b hb
  obtain ⟨e, _, rfl⟩ := List.mem_map.mp hb
  rw [entryLines]
  rfl

theorem parseBlock_entryLines (e : SubtitleEntry) (h : validEntry e = true) :
    parseBlock (entryLines e) = some e := by
  obtain ⟨h1, h2, _⟩ := validEntry_spec e h
  rcases hs : splitSep '\n' e.content.data with _ | ⟨c1, crest⟩
  · exact absurd hs (splitSep_ne_nil '\n' e.content.data)
  · rw [entryLines, hs, parseBlock, charsToNat?_natToChars,
        readTsLine_tsLine e.start e.stop h1 h2]
    have hjoin : joinInter '\n' (c1 :: crest) = e.content.data := by
      rw [← hs, joinInter_splitSep]
    rw [hjoin]

theorem parseBlocks_map (d : List SubtitleEntry) (h : validDoc d = true) :
    parseBlocks (d.map entryLines) = some d := by
  induction d with
  | nil => rfl
  | cons e d ih =>
    have hv : validEntry e = true := List.all_eq_true.mp h e (by simp)
    have hd : validDoc d = true := by
      rw [validDoc, List.all_eq_true]
      intro x hx
      exact List.all_eq_true.mp h x (List.mem_cons_of_mem _ hx)
    rw [List.map_cons, parseBlocks, parseBlock_entryLines e hv, ih hd]

/-! ## Whitespace stripping -/

theorem dropWhile_head_false (p : α → Bool) (l : List α) (c : α) (cs : List α)
    (h : l.dropWhile p = c :: cs) : p c = false := by
  have hh := List.head?_dropWhile_not p l
  rw [h] at hh
  simpa using hh

theorem dropWhile_eq_self_of_head (p : α → Bool) (l : List α)
    (h : ∀ c cs, l = c :: cs → p c = false) : l.dropWhile p = l := by
  cases l with
  | nil => rfl
  | cons c cs => simp [List.dropWhile_cons, h c cs rfl]

theorem dropWhile_idem (p : α → Bool) (l : List α) :
    (l.dropWhile p).dropWhile p = l.dropWhile p :=
  dropWhile_eq_self_of_head p _ (fun c cs h => dropWhile_head_false p l c cs h)

theorem getLast?_dropWhile (p : α → Bool) (l : List α)
    (h : l.dropWhile p ≠ []) : (l.dropWhile p).getLast? = l.getLast? := by
  obtain ⟨t, ht⟩ := List.dropWhile_suffix (l := l) p
  conv_rhs => rw [← ht]
  rw [List.getLast?_append]
  rcases hx : (l.dropWhile p).getLast? with _ | x
  · exact absurd (List.getLast?_eq_none_iff.mp hx) h
  · rfl

theorem stripChars_idem (cs : List Char) :
    stripChars (stripChars cs) = stripChars cs := by
  have h1 : (stripChars cs).dropWhile isWs = stripChars cs := by
    apply dropWhile_eq_self_of_head
    intro c cs2 hc
    have hBne : (cs.dropWhile isWs).reverse.dropWhile isWs ≠ [] := by
      intro h0
      rw [stripChars, h0] at hc
      exact List.noConfusion hc
    have hh : (stripChars cs).head? = some c := by rw [hc]; rfl
    rw [stripChars, List.head?_reverse,
        getLast?_dropWhile isWs (cs.dropWhile isWs).reverse hBne,
        List.getLast?_reverse] at hh
    rcases hAc : cs.dropWhile isWs with _ | ⟨a, as⟩
    · rw [hAc] at hh; exact absurd hh (by simp)
    · rw [hAc] at hh
      simp only [List.head?_cons, Option.some.injEq] at hh
      rcases hh with rfl
      exact dropWhile_head_false isWs cs _ as hAc
  show ((((stripChars cs).dropWhile isWs).reverse).dropWhile isWs).reverse
      = stripChars cs
  rw [h1]
  have h2 : (stripChars cs).reverse =
      (cs.dropWhile isWs).reverse.dropWhile isWs := by
    rw [stripChars, List.reverse_reverse]
  rw [h2, dropWhile_idem]
  rfl

theorem strip_idem (s : String) : strip (strip s) = strip s := by
  show String.mk (stripChars (stripChars s.data)) = String.mk (stripChars s.data)
  exact congrArg String.mk (stripChars_idem s.data)

/-! ## `write_srt` -/

theorem write_srtAux_length (segs : List Segment) :
    ∀ k, (write_srtAux k segs).length = segs.length := by
  induction segs with
  | nil => intro k; rfl
  | cons s ss ih => intro k; rw [write_srtAux, List.length_cons, ih,
      List.length_cons]

theorem write_srtAux_get (segs : List Segment) :
    ∀ k i (h1 : i < (write_srtAux k segs).length) (h2 : i < segs.length),
      (write_srtAux k segs).get ⟨i, h1⟩ =
        ⟨k + i, (segs.get ⟨i, h2⟩).start, (segs.get ⟨i, h2⟩).stop,
          strip (segs.get ⟨i, h2⟩).text⟩ := by
  induction segs with
  | nil => intro k i h1 h2; exact absurd h2 (by simp)
  | cons s ss ih =>
    intro k i h1 h2
    cases i with
    | zero => simp [write_srtAux]
    | succ j =>
      have h1' : j < (write_srtAux (k + 1) ss).length := by
        rw [write_srtAux] at h1
        simpa using h1
      have h2' : j < ss.length := by simpa using h2
      have := ih (k + 1) j h1' h2'
      simp only [write_srtAux, List.get_cons_succ, List.length_cons] at *
      rw [this]
      congr 1
      omega

/-! ## Batching -/

theorem chunksAux_flatten_map (f : String → String) (bs : Nat) (hbs : 0 < bs) :
    ∀ fuel (l : List String), l.length ≤ fuel →
      ((chunksAux fuel bs l).map (fun c => c.map f)).flatten = l.map f := by
  intro fuel
  induction fuel with
  | zero =>
    intro l hl
    have : l = [] := List.length_eq_zero.mp (Nat.le_zero.mp hl)
    subst this; rfl
  | succ fu ih =>
    intro l hl
    cases l with
    | nil => rfl
    | cons x xs =>
      have hd : ((x :: xs).drop bs).length ≤ fu := by
        rw [List.length_drop, List.length_cons]
        rw [List.length_cons] at hl
        omega
      rw [show chunksAux (fu + 1) bs (x :: xs)
            = (x :: xs).take bs :: chunksAux fu bs ((x :: xs).drop bs) from rfl,
          List.map_cons, List.flatten_cons, ih _ hd, ← List.map_append,
          List.take_append_drop]

theorem easynmt_translate_eq_map (f : String → String) (bs : Nat)
    (hbs : 0 < bs) (l : List String) : easynmt_translate f bs l = l.map f :=
  chunksAux_flatten_map f bs hbs l.length l le_rfl

theorem zipWith_content_map (g : String → String)
    (subs : List SubtitleEntry) :
    List.zipWith (fun s t => { s with content := t }) subs
        (subs.map (fun s => g s.content)) =
      subs.map (fun s => { s with content := g s.content }) := by
  induction subs with
  | nil => rfl
  | cons s ss ih => simp only [List.map_cons, List.zipWith_cons_cons, ih]

theorem translate_srt_opus_easynmt (f : String → String) (bs : Nat)
    (hbs : 0 < bs) (subs : List SubtitleEntry) :
    translate_srt_opus (easynmt_translate f bs) subs =
      some (subs.map (fun s => { s with content := f s.content })) := by
  rw [translate_srt_opus]
  simp only [easynmt_translate_eq_map f bs hbs, List.map_map]
  rw [if_pos (by simp)]
  rw [show ((fun s : String => f s) ∘ fun s : SubtitleEntry => s.content)
      = (fun s : SubtitleEntry => f s.content) from rfl]
  rw [zipWith_content_map]

/-! ## `ensure_argos_pair` branch equations -/

theorem ensure_installed (installed : List Language) (catalog : List Package)
    (dl : List Language → Package → Option (List Language))
    (src_lang tgt_lang : String) (tr : Translator)
    (h : load_translator installed src_lang tgt_lang = some tr) :
    ensure_argos_pair installed catalog dl src_lang tgt_lang =
      ⟨.ok tr, installed, 0⟩ := by
  rw [ensure_argos_pair, h]

theorem ensure_pairNotFound (installed : List Language)
    (catalog : List Package)
    (dl : List Language → Package → Option (List Language))
    (src_lang tgt_lang : String)
    (h1 : load_translator installed src_lang tgt_lang = none)
    (h2 : lookupPkg catalog (src_lang ++ "-" ++ tgt_lang) = none) :
    ensure_argos_pair installed catalog dl src_lang tgt_lang =
      ⟨.err .pairNotFound, installed, 0⟩ := by
  rw [ensure_argos_pair, h1, h2]

theorem ensure_installFailed (installed : List Language)
    (catalog : List Package)
    (dl : List Language → Package → Option (List Language))
    (src_lang tgt_lang : String) (pkg : Package)
    (h1 : load_translator installed src_lang tgt_lang = none)
    (h2 : lookupPkg catalog (src_lang ++ "-" ++ tgt_lang) = some pkg)
    (h3 : dl installed pkg = none) :
    ensure_argos_pair installed catalog dl src_lang tgt_lang =
      ⟨.err .installFailed, installed, 1⟩ := by
  simp only [ensure_argos_pair, h1, h2, h3]

theorem ensure_stillUnavailable (installed : List Language)
    (catalog : List Package)
    (dl : List Language → Package → Option (List Language))
    (src_lang tgt_lang : String) (pkg : Package) (installed2 : List Language)
    (h1 : load_translator installed src_lang tgt_lang = none)
    (h2 : lookupPkg catalog (src_lang ++ "-" ++ tgt_lang) = some pkg)
    (h3 : dl installed pkg = some installed2)
    (h4 : load_translator installed2 src_lang tgt_lang = none) :
    ensure_argos_pair installed catalog dl src_lang tgt_lang =
      ⟨.err .stillUnavailable, installed2, 1⟩ := by
  simp only [ensure_argos_pair, h1, h2, h3, h4]

theorem ensure_ok_after_install (installed : List Language)
    (catalog : List Package)
    (dl : List Language → Package → Option (List Language))
    (src_lang tgt_lang : String) (pkg : Package) (installed2 : List Language)
    (tr : Translator)
    (h1 : load_translator installed src_lang tgt_lang = none)
    (h2 : lookupPkg catalog (src_lang ++ "-" ++ tgt_lang) = some pkg)
    (h3 : dl installed pkg = some installed2)
    (h4 : load_translator installed2 src_lang tgt_lang = some tr) :
    ensure_argos_pair installed catalog dl src_lang tgt_lang =
      ⟨.ok tr, installed2, 1⟩ := by
  simp only [ensure_argos_pair, h1, h2, h3, h4]

/-! ## Path suffix handling -/

theorem dropExtAux_skip : ∀ (l : List Char) (rs : List Char) (b : Bool),
    l ≠ [] → (∀ c ∈ l, c ≠ '.' ∧ c ≠ '/') →
    dropExtAux (l ++ rs) b = dropExtAux rs true := by
  intro l
  induction l with
  | nil => intro rs b h _; exact absurd rfl h
  | cons c cs ih =>
    intro rs b _ hok
    have hc := hok c (List.mem_cons_self _ _)
    rw [List.cons_append,
        show ∀ rest, dropExtAux (c :: rest) b =
          (if c = '/' then none
           else if c = '.' then
             (if b then
               match rest with
               | [] => none
               | r :: _ => if r = '/' then none else some rest
             else none)
           else dropExtAux rest true) from fun rest => rfl,
        if_neg hc.2, if_neg hc.1]
    cases cs with
    | nil => rfl
    | cons c2 cs2 =>
      exact ih rs true (by simp) (fun x hx => hok x (List.mem_cons_of_mem _ hx))

theorem with_suffix_empty_append (sl el : List Char) (hsl : sl ≠ [])
    (hlast : sl.getLast? ≠ some '/') (hel : el ≠ [])
    (hok : ∀ c ∈ el, c ≠ '.' ∧ c ≠ '/') :
    with_suffix_empty ⟨sl ++ '.' :: el⟩ = ⟨sl⟩ := by
  have hrev : (sl ++ '.' :: el).reverse = el.reverse ++ '.' :: sl.reverse := by
    rw [List.reverse_append, List.reverse_cons, List.append_assoc,
        List.singleton_append]
  have hok2 : ∀ c ∈ el.reverse, c ≠ '.' ∧ c ≠ '/' := by
    intro c hc; exact hok c (List.mem_reverse.mp hc)
  have hne2 : el.reverse ≠ [] := by
    intro h; exact hel (by simpa using congrArg List.reverse h)
  have hE : dropExtAux (sl ++ '.' :: el).reverse false = some sl.reverse := by
    rw [hrev, dropExtAux_skip el.reverse _ _ hne2 hok2]
    rcases hr : sl.reverse with _ | ⟨r, rrest⟩
    · exact absurd (by simpa using congrArg List.reverse hr) hsl
    · have hhead : sl.getLast? = some r := by
        rw [← List.head?_reverse, hr]; rfl
      have hrne : r ≠ '/' := by
        intro hh; rw [hh] at hhead; exact hlast hhead
      rw [show dropExtAux ('.' :: r :: rrest) true
            = if r = '/' then none else some (r :: rrest) from rfl,
          if_neg hrne]
  show (match dropExtAux (sl ++ '.' :: el).reverse false with
        | some r => (⟨r.reverse⟩ : String)
        | none => ⟨sl ++ '.' :: el⟩) = ⟨sl⟩
  rw [hE]
  exact congrArg String.mk (List.reverse_reverse sl)

/-! ## Hyphen-joined keys -/

theorem append_hyphen_inj_aux : ∀ (s f t g : List Char), '-' ∉ s → '-' ∉ f →
    s ++ '-' :: t = f ++ '-' :: g → s = f ∧ t = g := by
  intro s
  induction s with
  | nil =>
    intro f t g hs hf h
    cases f with
    | nil => simpa using h
    | cons c fs =>
      rw [List.nil_append, List.cons_append] at h
      injection h with h1 h2
      exact absurd (h1 ▸ List.mem_cons_self c fs) hf
  | cons c ss ih =>
    intro f t g hs hf h
    cases f with
    | nil =>
      rw [List.cons_append, List.nil_append] at h
      injection h with h1 h2
      exact absurd (h1 ▸ List.mem_cons_self c ss) hs
    | cons c2 fs =>
      rw [List.cons_append, List.cons_append] at h
      injection h with h1 h2
      have hs2 : '-' ∉ ss := fun hm => hs (List.mem_cons_of_mem _ hm)
      have hf2 : '-' ∉ fs := fun hm => hf (List.mem_cons_of_mem _ hm)
      obtain ⟨hsf, htg⟩ := ih fs t g hs2 hf2 h2
      exact ⟨by rw [h1, hsf], htg⟩

theorem append_hyphen_inj (s t f g : List Char) (hs : '-' ∉ s)
    (hf : '-' ∉ f) : s ++ '-' :: t = f ++ '-' :: g ↔ s = f ∧ t = g := by
  constructor
  · exact append_hyphen_inj_aux s f t g hs hf
  · rintro ⟨rfl, rfl⟩; rfl

theorem pkgKey_eq_iff (p : Package) (src tgt : String)
    (hsrc : '-' ∉ src.data) (hp : '-' ∉ p.from_code.data) :
    (pkgKey p = src ++ "-" ++ tgt) ↔
      (p.from_code = src ∧ p.to_code = tgt) := by
  rw [pkgKey, String.ext_iff, String.data_append, String.data_append,
      String.data_append, String.data_append,
      show ("-" : String).data = ['-'] from rfl, List.append_assoc,
      List.append_assoc, List.singleton_append, List.singleton_append,
      append_hyphen_inj _ _ _ _ hp hsrc,
      @String.ext_iff p.from_code src, @String.ext_iff p.to_code tgt]

/-! ## Helpers for `main`-level claims -/

theorem write_srt_get (segs : List Segment) (i : Nat)
    (h1 : i < (write_srt segs).length) (h2 : i < segs.length) :
    (write_srt segs).get ⟨i, h1⟩ =
      ⟨i + 1, (segs.get ⟨i, h2⟩).start, (segs.get ⟨i, h2⟩).stop,
        strip (segs.get ⟨i, h2⟩).text⟩ := by
  have hg := write_srtAux_get segs 1 i h1 h2
  rw [Nat.add_comm 1 i] at hg
  exact hg

theorem firstComponent_append (a rest : List Char) (ha : '-' ∉ a) :
    firstComponent ⟨a ++ '-' :: rest⟩ = ⟨a⟩ := by
  have hd : (⟨a ++ '-' :: rest⟩ : String).data = a ++ '-' :: rest := rfl
  rw [firstComponent, hd, splitSep_append_sep '-' a rest ha]

theorem firstComponent_no_hyphen (s : String) (hs : '-' ∉ s.data) :
    firstComponent s = s := by
  rw [firstComponent, splitSep_of_not_mem '-' s.data hs]

theorem translate_srt_get (tr : String → String) (d : List SubtitleEntry)
    (i : Nat) (h1 : i < (translate_srt tr d).length) (h2 : i < d.length) :
    (translate_srt tr d).get ⟨i, h1⟩
      = { d.get ⟨i, h2⟩ with content := tr (d.get ⟨i, h2⟩).content } :=
  List.get_map _

end Goober

namespace Goober

/-! ## The claims -/

/-- C1: for every subtitle document and both backends — the per-entry
pair-model `translate_srt` and the batch `translate_srt_opus` run over
the spec-modelled EasyNMT batch translator with any positive batch
size — the i-th translated entry keeps the i-th original entry's
`index`, `start` and `end`, only `content` is replaced (by the
translation of the original content), and the entry count and order are
preserved. -/
theorem claim_C1_frame_preservation (d : List SubtitleEntry)
    (tr f : String → String) (bs : Nat) (hbs : 0 < bs) :
    ((translate_srt tr d).length = d.length ∧
      ∀ i (h1 : i < (translate_srt tr d).length) (h2 : i < d.length),
        ((translate_srt tr d).get ⟨i, h1⟩).index = (d.get ⟨i, h2⟩).index ∧
        ((translate_srt tr d).get ⟨i, h1⟩).start = (d.get ⟨i, h2⟩).start ∧
        ((translate_srt tr d).get ⟨i, h1⟩).stop = (d.get ⟨i, h2⟩).stop ∧
        ((translate_srt tr d).get ⟨i, h1⟩).content
          = tr (d.get ⟨i, h2⟩).content) ∧
    ∃ out, translate_srt_opus (easynmt_translate f bs) d = some out ∧
      out.length = d.length ∧
      ∀ i (h1 : i < out.length) (h2 : i < d.length),
        (out.get ⟨i, h1⟩).index = (d.get ⟨i, h2⟩).index ∧
        (out.get ⟨i, h1⟩).start = (d.get ⟨i, h2⟩).start ∧
        (out.get ⟨i, h1⟩).stop = (d.get ⟨i, h2⟩).stop ∧
        (out.get ⟨i, h1⟩).content = f (d.get ⟨i, h2⟩).content := by
  constructor
  · constructor
    · simp [translate_srt]
    · intro i h1 h2
      rw [translate_srt_get tr d i h1 h2]
      exact ⟨rfl, rfl, rfl, rfl⟩
  · refine ⟨d.map (fun s => { s with content := f s.content }),
      translate_srt_opus_easynmt f bs hbs d, by simp, ?_⟩
    intro i h1 h2
    rw [List.get_map]
    exact ⟨rfl, rfl, rfl, rfl⟩

/-- C1 witness: concrete instance with batch size 1 on a two-entry
document. -/
theorem claim_C1_frame_preservation_witness :
    ((translate_srt (fun s => s ++ "!")
        [⟨1, 0, 1200, "Hi"⟩, ⟨2, 1200, 2000, "Bye"⟩]).length = 2) ∧
    (∃ out, translate_srt_opus (easynmt_translate (fun s => s ++ "!") 1)
        [⟨1, 0, 1200, "Hi"⟩, ⟨2, 1200, 2000, "Bye"⟩] = some out ∧
      out.length = ([⟨1, 0, 1200, "Hi"⟩, ⟨2, 1200, 2000, "Bye"⟩] :
        List SubtitleEntry).length ∧
      ∀ i (h1 : i < out.length)
        (h2 : i < ([⟨1, 0, 1200, "Hi"⟩, ⟨2, 1200, 2000, "Bye"⟩] :
          List SubtitleEntry).length),
        (out.get ⟨i, h1⟩).index
          = (([⟨1, 0, 1200, "Hi"⟩, ⟨2, 1200, 2000, "Bye"⟩] :
              List SubtitleEntry).get ⟨i, h2⟩).index ∧
        (out.get ⟨i, h1⟩).start
          = (([⟨1, 0, 1200, "Hi"⟩, ⟨2, 1200, 2000, "Bye"⟩] :
              List SubtitleEntry).get ⟨i, h2⟩).start ∧
        (out.get ⟨i, h1⟩).stop
          = (([⟨1, 0, 1200, "Hi"⟩, ⟨2, 1200, 2000, "Bye"⟩] :
              List SubtitleEntry).get ⟨i, h2⟩).stop ∧
        (out.get ⟨i, h1⟩).content
          = (([⟨1, 0, 1200, "Hi"⟩, ⟨2, 1200, 2000, "Bye"⟩] :
              List SubtitleEntry).get ⟨i, h2⟩).content ++ "!") :=
  ⟨((claim_C1_frame_preservation _ (fun s => s ++ "!") (fun s => s ++ "!") 1
      (by decide)).1.1.trans rfl),
   (claim_C1_frame_preservation _ (fun s => s ++ "!") (fun s => s ++ "!") 1
      (by decide)).2⟩

/-- C4: for every valid subtitle document (fixed-width-representable
timestamps, no blank content line), parsing the composed text yields the
document back exactly — same indices, same millisecond timestamps, same
content — which is structural equality modulo (here: including) trailing
whitespace. -/
theorem claim_C4_round_trip (d : List SubtitleEntry)
    (h : validDoc d = true) : parseDoc (composeDoc d) = some d := by
  rw [parseDoc,
      show (composeDoc d).data = joinSep '\n' (docLines d) from rfl,
      splitSep_joinSep '\n' (docLines d) (docLines_no_nl d h),
      splitSep_nil_docLines d h, filter_blocks d, parseBlocks_map d h]

/-- C4 witness: the spec's Scenario C entry round-trips. -/
theorem claim_C4_round_trip_witness :
    validDoc [⟨1, 1000, 2500, "Hello"⟩] = true ∧
    parseDoc (composeDoc [⟨1, 1000, 2500, "Hello"⟩])
      = some [⟨1, 1000, 2500, "Hello"⟩] :=
  ⟨by decide, claim_C4_round_trip _ (by decide)⟩

/-- C6: the batch multilingual backend, for every positive batch size,
returns a list of the same length with the i-th output the translation
of the i-th input, and the result does not depend on where the batch
boundaries fall. -/
theorem claim_C6_batch_length (f : String → String) (bs : Nat)
    (hbs : 0 < bs) (l : List String) :
    (easynmt_translate f bs l).length = l.length ∧
    (∀ i (h1 : i < (easynmt_translate f bs l).length) (h2 : i < l.length),
      (easynmt_translate f bs l).get ⟨i, h1⟩ = f (l.get ⟨i, h2⟩)) ∧
    ∀ bs2, 0 < bs2 →
      easynmt_translate f bs l = easynmt_translate f bs2 l := by
  rw [easynmt_translate_eq_map f bs hbs]
  refine ⟨by simp, ?_, ?_⟩
  · intro i h1 h2
    rw [List.get_map]
  · intro bs2 hbs2
    rw [easynmt_translate_eq_map f bs2 hbs2]

/-- C6 witness: batch sizes 2 and 32 on a three-element list. -/
theorem claim_C6_batch_length_witness :
    (easynmt_translate (fun s => s ++ "!") 2 ["a", "b", "c"]).length
      = (["a", "b", "c"] : List String).length ∧
    easynmt_translate (fun s => s ++ "!") 2 ["a", "b", "c"]
      = easynmt_translate (fun s => s ++ "!") 32 ["a", "b", "c"] :=
  ⟨(claim_C6_batch_length _ 2 (by decide) _).1,
   (claim_C6_batch_length _ 2 (by decide) _).2.2 32 (by decide)⟩

/-- C2: if the pair's translator is already installed (loadable from the
registry), `ensure_argos_pair` returns it immediately with zero
download/install operations and an unchanged registry; and after any
successful call, a second call performs zero download/install operations
and returns the same handle. -/
theorem claim_C2_idempotence (installed : List Language)
    (catalog : List Package)
    (dl : List Language → Package → Option (List Language))
    (src_lang tgt_lang : String) (tr : Translator) :
    (load_translator installed src_lang tgt_lang = some tr →
      ensure_argos_pair installed catalog dl src_lang tgt_lang =
        ⟨.ok tr, installed, 0⟩) ∧
    ((ensure_argos_pair installed catalog dl src_lang tgt_lang).outcome
        = .ok tr →
      ensure_argos_pair
          (ensure_argos_pair installed catalog dl src_lang
            tgt_lang).finalState catalog dl src_lang tgt_lang =
        ⟨.ok tr,
          (ensure_argos_pair installed catalog dl src_lang
            tgt_lang).finalState, 0⟩) := by
  refine ⟨fun h => ensure_installed _ _ _ _ _ _ h, fun h => ?_⟩
  rcases hl : load_translator installed src_lang tgt_lang with _ | tr0
  · rcases hp : lookupPkg catalog (src_lang ++ "-" ++ tgt_lang) with _ | pkg
    · rw [ensure_pairNotFound _ _ _ _ _ hl hp] at h
      simp at h
    · rcases hd : dl installed pkg with _ | st2
      · rw [ensure_installFailed _ _ _ _ _ _ hl hp hd] at h
        simp at h
      · rcases hl2 : load_translator st2 src_lang tgt_lang with _ | tr0
        · rw [ensure_stillUnavailable _ _ _ _ _ _ _ hl hp hd hl2] at h
          simp at h
        · rw [ensure_ok_after_install _ _ _ _ _ _ _ _ hl hp hd hl2] at h ⊢
          simp only [EnsureOutcome.ok.injEq] at h
          rcases h with rfl
          exact ensure_installed _ _ _ _ _ _ hl2
  · rw [ensure_installed _ _ _ _ _ _ hl] at h ⊢
    simp only [EnsureOutcome.ok.injEq] at h
    rcases h with rfl
    exact ensure_installed _ _ _ _ _ _ hl

/-- C2 witness: a registry with `en→id` installed; the first call
returns the handle with zero downloads, and a second call after it does
the same. -/
theorem claim_C2_idempotence_witness :
    ensure_argos_pair [⟨"en", ["id"]⟩, ⟨"id", []⟩] []
        (fun _ _ => none) "en" "id"
      = ⟨.ok ⟨"en", "id"⟩, [⟨"en", ["id"]⟩, ⟨"id", []⟩], 0⟩ ∧
    ensure_argos_pair
        (ensure_argos_pair [⟨"en", ["id"]⟩, ⟨"id", []⟩] []
          (fun _ _ => none) "en" "id").finalState []
        (fun _ _ => none) "en" "id"
      = ⟨.ok ⟨"en", "id"⟩,
          (ensure_argos_pair [⟨"en", ["id"]⟩, ⟨"id", []⟩] []
            (fun _ _ => none) "en" "id").finalState, 0⟩ :=
  ⟨(claim_C2_idempotence _ _ _ _ _ _).1 (by decide),
   (claim_C2_idempotence _ _ _ _ _ _).2 (by decide)⟩

/-- C3 counterexample: catalog matching is keyed by the concatenated
string `f"{from_code}-{to_code}"`, not by the two codes separately.  For
the pair `("a", "b-c")` and a catalog whose only package is
`("a-b", "c")` — which matches the pair in neither code — the key
`"a-b-c"` collides, so `ensure_argos_pair` downloads and installs (one
download, outcome ok) instead of failing with `PairNotFound` and
performing no install, refuting the claim that matching is exact on both
codes. -/
theorem claim_C3_counterexample :
    (Package.from_code ⟨"a-b", "c"⟩ ≠ "a" ∧
      Package.to_code ⟨"a-b", "c"⟩ ≠ "b-c") ∧
    load_translator [] "a" "b-c" = none ∧
    (ensure_argos_pair [] [⟨"a-b", "c"⟩]
        (fun _ _ => some [⟨"a", ["b-c"]⟩, ⟨"b-c", []⟩]) "a" "b-c").downloads
      = 1 ∧
    (ensure_argos_pair [] [⟨"a-b", "c"⟩]
        (fun _ _ => some [⟨"a", ["b-c"]⟩, ⟨"b-c", []⟩]) "a" "b-c").outcome
      = .ok ⟨"a", "b-c"⟩ := by
  decide

/-- C3 amended: catalog matching is exact on the concatenated
`from-to` key string; when no package's key equals
`src_lang ++ "-" ++ tgt_lang` (and the pair is not installed), `ensure`
fails with `ProvisioningError{PairNotFound}`, performs no
download/install and leaves the registry unchanged.  For hyphen-free
from-codes the key comparison coincides with exact equality of both
codes. -/
theorem claim_C3_exact_match (installed : List Language)
    (catalog : List Package)
    (dl : List Language → Package → Option (List Language))
    (src_lang tgt_lang : String)
    (hload : load_translator installed src_lang tgt_lang = none)
    (hnone : ∀ p ∈ catalog, pkgKey p ≠ src_lang ++ "-" ++ tgt_lang) :
    ensure_argos_pair installed catalog dl src_lang tgt_lang =
      ⟨.err .pairNotFound, installed, 0⟩ ∧
    ∀ p : Package, '-' ∉ src_lang.data → '-' ∉ p.from_code.data →
      (pkgKey p = src_lang ++ "-" ++ tgt_lang ↔
        p.from_code = src_lang ∧ p.to_code = tgt_lang) := by
  constructor
  · apply ensure_pairNotFound _ _ _ _ _ hload
    rw [lookupPkg]
    apply List.find?_eq_none.mpr
    intro p hp hbeq
    exact hnone p (List.mem_reverse.mp hp) (by simpa using hbeq)
  · intro p hsrc hp
    exact pkgKey_eq_iff p _ _ hsrc hp

/-- C3 witness: the spec's Scenario B — `ensure(("fr","xx"))` against a
catalog containing only `("fr","de")` fails with `PairNotFound`, no
install; and the key comparison for `("fr","de")` matches both-code
equality. -/
theorem claim_C3_exact_match_witness :
    ensure_argos_pair [] [⟨"fr", "de"⟩] (fun _ _ => none) "fr" "xx"
      = ⟨.err .pairNotFound, [], 0⟩ ∧
    (pkgKey ⟨"fr", "de"⟩ = "fr" ++ "-" ++ "xx" ↔
      Package.from_code ⟨"fr", "de"⟩ = "fr" ∧
        Package.to_code ⟨"fr", "de"⟩ = "xx") :=
  ⟨(claim_C3_exact_match [] [⟨"fr", "de"⟩] (fun _ _ => none) "fr" "xx"
      (by decide) (by decide)).1,
   (claim_C3_exact_match [] [⟨"fr", "de"⟩] (fun _ _ => none) "fr" "xx"
      (by decide) (by decide)).2 ⟨"fr", "de"⟩ (by decide) (by decide)⟩

/-- C7: if the pair is not installed, a catalog package matches, and the
download-and-install step completes without raising but the pair is
still absent from the registry afterwards, `ensure_argos_pair` fails
with `ProvisioningError{StillUnavailable}` and returns no handle. -/
theorem claim_C7_still_unavailable (installed : List Language)
    (catalog : List Package)
    (dl : List Language → Package → Option (List Language))
    (src_lang tgt_lang : String) (pkg : Package) (installed2 : List Language)
    (h1 : load_translator installed src_lang tgt_lang = none)
    (h2 : lookupPkg catalog (src_lang ++ "-" ++ tgt_lang) = some pkg)
    (h3 : dl installed pkg = some installed2)
    (h4 : load_translator installed2 src_lang tgt_lang = none) :
    ensure_argos_pair installed catalog dl src_lang tgt_lang =
      ⟨.err .stillUnavailable, installed2, 1⟩ ∧
    ∀ tr : Translator,
      (ensure_argos_pair installed catalog dl src_lang tgt_lang).outcome
        ≠ .ok tr := by
  have he := ensure_stillUnavailable installed catalog dl src_lang tgt_lang
    pkg installed2 h1 h2 h3 h4
  refine ⟨he, fun tr => ?_⟩
  rw [he]
  simp

/-- C7 witness: an install step that "succeeds" but leaves the registry
empty yields `StillUnavailable`. -/
theorem claim_C7_still_unavailable_witness :
    ensure_argos_pair [] [⟨"fr", "xx"⟩] (fun _ _ => some []) "fr" "xx"
      = ⟨.err .stillUnavailable, [], 1⟩ ∧
    ∀ tr : Translator,
      (ensure_argos_pair [] [⟨"fr", "xx"⟩] (fun _ _ => some []) "fr"
        "xx").outcome ≠ .ok tr :=
  claim_C7_still_unavailable [] [⟨"fr", "xx"⟩] (fun _ _ => some []) "fr" "xx"
    ⟨"fr", "xx"⟩ [] (by decide) (by decide) (by decide) (by decide)

/-- C5 counterexample: the claim says both codes of the pair handed
downstream are lowercased with region subtags stripped.  In the source
only the effective source code is region-stripped — it is not lowercased
(`src_code = (...).split("-")[0]` with no `.lower()` on the result) —
and the `--to` code is passed through verbatim.  With
`--language EN-us --to PT-br` the pair is `("EN", "PT-br")`, neither
lowercase nor (for the target) stripped. -/
theorem claim_C5_counterexample :
    main_pair "EN-us" "xx" "PT-br" = ("EN", "PT-br") ∧
    ("EN" : String) ≠ "en" ∧ ("PT-br" : String) ≠ "pt" := by
  decide

/-- C5 amended: the effective source code is the explicit language
argument when its ASCII-lowercase form is not `"auto"`, else the
detected code, and in either branch everything from the first hyphen is
stripped (but nothing is lowercased); the target code is used exactly
as given.  Stated for a hyphenated code `a-rest` (`'-' ∉ a`) in each
branch — explicit-language and detected — plus the no-op cases for
hyphen-free codes. -/
theorem claim_C5_source_normalization (a rest : List Char)
    (language det toCode : String) (ha : '-' ∉ a) :
    (asciiLower ⟨a ++ '-' :: rest⟩ ≠ "auto" →
      main_pair ⟨a ++ '-' :: rest⟩ det toCode = (⟨a⟩, toCode)) ∧
    (asciiLower language = "auto" →
      main_pair language ⟨a ++ '-' :: rest⟩ toCode = (⟨a⟩, toCode)) ∧
    (asciiLower language = "auto" → '-' ∉ det.data →
      main_pair language det toCode = (det, toCode)) ∧
    (asciiLower language ≠ "auto" → '-' ∉ language.data →
      main_pair language det toCode = (language, toCode)) := by
  refine ⟨fun hne => ?_, fun heq => ?_, fun heq hdet => ?_,
    fun hne2 hlang => ?_⟩
  · rw [main_pair, resolve_src_code, if_neg hne,
        firstComponent_append a rest ha]
  · rw [main_pair, resolve_src_code, if_pos heq,
        firstComponent_append a rest ha]
  · rw [main_pair, resolve_src_code, if_pos heq,
        firstComponent_no_hyphen det hdet]
  · rw [main_pair, resolve_src_code, if_neg hne2,
        firstComponent_no_hyphen language hlang]

/-- C5 witness: `--language en-US` resolves to source `en` (the spec's
normalization example); `--language auto` with detected code `pt-BR`
resolves to `pt`; and `--language AUTO` with a hyphen-free detected
code falls back to it unchanged. -/
theorem claim_C5_source_normalization_witness :
    main_pair ⟨("en").data ++ '-' :: ("US").data⟩ "xx" "id"
      = (⟨("en").data⟩, "id") ∧
    main_pair "auto" ⟨("pt").data ++ '-' :: ("BR").data⟩ "id"
      = (⟨("pt").data⟩, "id") ∧
    main_pair "AUTO" "ja" "id" = ("ja", "id") :=
  ⟨(claim_C5_source_normalization ("en").data ("US").data "x" "xx" "id"
      (by decide)).1 (by decide),
   (claim_C5_source_normalization ("pt").data ("BR").data "auto" "x" "id"
      (by decide)).2.1 (by decide),
   (claim_C5_source_normalization [] [] "AUTO" "ja" "id"
      (by decide)).2.2.1 (by decide) (by decide)⟩

/-- C8 counterexample: the built entry's content is the segment's text
stripped of surrounding whitespace (`seg[2].strip()`), not the text
itself: for the single segment `(0, 1000, " Hi ")` the entry content is
`"Hi"`, not `" Hi "`, refuting the claim that entry i carries segment
i's text as content (the index/timestamp part of the claim does hold). -/
theorem claim_C8_counterexample :
    write_srt [⟨0, 1000, " Hi "⟩] = [⟨1, 0, 1000, "Hi"⟩] ∧
    (" Hi " : String) ≠ "Hi" := by
  decide

/-- C8 amended: the document built from N ordered segments has exactly N
entries; entry i (0-based position) has index i+1 — so indices are the
dense, unique, strictly increasing sequence 1..N — and carries segment
i's start and end times and its whitespace-stripped text as content. -/
theorem claim_C8_dense_indices (segs : List Segment) :
    (write_srt segs).length = segs.length ∧
    ∀ i (h1 : i < (write_srt segs).length) (h2 : i < segs.length),
      ((write_srt segs).get ⟨i, h1⟩).index = i + 1 ∧
      ((write_srt segs).get ⟨i, h1⟩).start = (segs.get ⟨i, h2⟩).start ∧
      ((write_srt segs).get ⟨i, h1⟩).stop = (segs.get ⟨i, h2⟩).stop ∧
      ((write_srt segs).get ⟨i, h1⟩).content
        = strip (segs.get ⟨i, h2⟩).text := by
  refine ⟨write_srtAux_length segs 1, fun i h1 h2 => ?_⟩
  rw [write_srt_get segs i h1 h2]
  exact ⟨rfl, rfl, rfl, rfl⟩

/-- C8 witness: two segments produce indices 1 and 2 with the segments'
times. -/
theorem claim_C8_dense_indices_witness :
    (write_srt [⟨0, 1200, "Hi"⟩, ⟨1200, 2000, "Bye"⟩]).length
      = ([⟨0, 1200, "Hi"⟩, ⟨1200, 2000, "Bye"⟩] : List Segment).length ∧
    ((write_srt [⟨0, 1200, "Hi"⟩, ⟨1200, 2000, "Bye"⟩]).get
        ⟨1, by decide⟩).index = 1 + 1 :=
  ⟨(claim_C8_dense_indices _).1,
   ((claim_C8_dense_indices [⟨0, 1200, "Hi"⟩, ⟨1200, 2000, "Bye"⟩]).2 1
      (by decide) (by decide)).1⟩

/-- C10: `write_srt` stores each segment's text stripped of leading and
trailing whitespace, and consequently every stored content is a
fixed point of stripping (no leading or trailing whitespace remains). -/
theorem claim_C10_stripped_content (segs : List Segment) (i : Nat)
    (h1 : i < (write_srt segs).length) (h2 : i < segs.length) :
    ((write_srt segs).get ⟨i, h1⟩).content = strip (segs.get ⟨i, h2⟩).text ∧
    strip (((write_srt segs).get ⟨i, h1⟩).content)
      = ((write_srt segs).get ⟨i, h1⟩).content := by
  rw [write_srt_get segs i h1 h2]
  exact ⟨rfl, strip_idem _⟩

/-- C10 witness: `" Hi "` is stored as `"Hi"`, which strips to itself. -/
theorem claim_C10_stripped_content_witness :
    ((write_srt [⟨0, 1000, " Hi "⟩]).get ⟨0, by decide⟩).content
      = strip (([⟨0, 1000, " Hi "⟩] : List Segment).get ⟨0, by decide⟩).text ∧
    strip (((write_srt [⟨0, 1000, " Hi "⟩]).get ⟨0, by decide⟩).content)
      = ((write_srt [⟨0, 1000, " Hi "⟩]).get ⟨0, by decide⟩).content :=
  claim_C10_stripped_content [⟨0, 1000, " Hi "⟩] 0 (by decide) (by decide)

/-- C9: for every input video path of the form `stem.ext` (non-empty
extension without dots or separators, non-empty stem not ending in a
separator) and every target code, the original subtitles path is
`stem.orig.srt` and the translated subtitles path is
`stem.<to_code>.srt` — the base is the input path with its extension
removed. -/
theorem claim_C9_output_paths (sl el : List Char) (toCode : String)
    (hsl : sl ≠ []) (hlast : sl.getLast? ≠ some '/') (hel : el ≠ [])
    (hok : ∀ c ∈ el, c ≠ '.' ∧ c ≠ '/') :
    out_orig ⟨sl ++ '.' :: el⟩ = (⟨sl⟩ : String) ++ ".orig.srt" ∧
    out_trans ⟨sl ++ '.' :: el⟩ toCode
      = (⟨sl⟩ : String) ++ "." ++ toCode ++ ".srt" := by
  rw [out_orig, out_trans, with_suffix_empty_append sl el hsl hlast hel hok]
  exact ⟨rfl, rfl⟩

/-- C9 witness: `video.mp4` with target `id` yields `video.orig.srt`
and `video.id.srt`. -/
theorem claim_C9_output_paths_witness :
    out_orig ⟨("video").data ++ '.' :: ("mp4").data⟩
      = (⟨("video").data⟩ : String) ++ ".orig.srt" ∧
    out_trans ⟨("video").data ++ '.' :: ("mp4").data⟩ "id"
      = (⟨("video").data⟩ : String) ++ "." ++ "id" ++ ".srt" :=
  claim_C9_output_paths ("video").data ("mp4").data "id" (by decide)
    (by decide) (by decide) (by decide)

end Goober
